import Mathlib

/-!
# Verification of the gifcities transform pipeline (`transform/main.go`)

This file gives a shallow embedding of the manifest-to-document aggregation
and reconciliation pipeline of the gifcities repository and proves properties
of it.  The embedded functions are:

* `splitWaybackURL`, `parsePage`, `parseUse` — the manifest line parser;
* `manifest` — the aggregation pass (`func manifest`);
* `vecmerge` — the enrichment merger (`func vecmerge`);
* `fixmanifest` — the reconciliation resolver (`func fixmanifest`).

Modelling conventions:

* File and network I/O is abstracted away: each pass takes its input as an
  already-read list of lines (for the space-delimited manifest) or of
  already-deserialized records (for the JSONL inputs, whose decoding is done
  by Go's `encoding/json`, outside this repository), and returns the records
  it would serialize together with the log lines it would emit.
* Go strings are Lean `String`s; all string manipulation is re-implemented by
  structural recursion over the underlying `List Char` so that concrete runs
  reduce in the kernel.
* Go's `int32` dimensions are modelled as `Int`; `strconv.ParseInt(s, 10, 32)`
  rejects any value outside `[-2^31, 2^31-1]`, and the subsequent `int32(...)`
  conversion is therefore exact, so no wrap-around is modelled.
* `float32`/`float64` payloads (`mnsfw`, embedding components) are carried by
  the pipeline entirely opaquely — they are decoded, copied and re-encoded but
  never computed with — so they are modelled by `Int` stand-in values.
* A Go runtime panic (slice index out of range in this code) is the `crash`
  outcome, distinct from an error returned as a value (`err`).
* Go map iteration order is unspecified; the model emits records in map
  insertion order, one admissible order.  All properties proved about emitted
  record sets are order-insensitive (membership, pairwise distinctness,
  per-record invariants).
-/

/-- Outcome of a Go function returning `error`: normal return, returned
error, or runtime panic (index out of range). -/
inductive Outcome (α : Type) where
  | ok : α → Outcome α
  | err : String → Outcome α
  | crash : Outcome α
deriving DecidableEq

/-- The normally-returned value, with a default for the failure outcomes
(used to name concrete run results in closed statements). -/
def Outcome.okD {α : Type} (o : Outcome α) (d : α) : α :=
  match o with
  | .ok a => a
  | _ => d

namespace Gifcities

/-! ## Character-list string primitives (Go `strings` package semantics) -/

/-- Go `strings.Split(s, sep)` for a one-character separator, over char
lists: splits at every occurrence, keeping empty fields; `Split("", sep)`
is `[""]`. -/
def splitChars (sep : Char) : List Char → List (List Char)
  | [] => [[]]
  | c :: cs =>
    let r := splitChars sep cs
    if c == sep then [] :: r
    else
      match r with
      | h :: t => (c :: h) :: t
      | [] => [[c]]

/-- Join char-list pieces with a one-character separator
(Go `strings.Join` with a one-character separator). -/
def joinWith (sep : Char) : List (List Char) → List Char
  | [] => []
  | [h] => h
  | h :: t => h ++ sep :: joinWith sep t

/-- Split at the first occurrence of `sep`: `some (before, after)`, or
`none` when `sep` does not occur.  `strings.SplitN(s, sep, 2)` yields a
two-element slice exactly in the `some` case. -/
def splitFirst (sep : Char) : List Char → Option (List Char × List Char)
  | [] => none
  | c :: cs =>
    if c == sep then some ([], cs)
    else (splitFirst sep cs).map fun p => (c :: p.1, p.2)

/-- Last element of a split result (never empty, so the default is dead). -/
def lastDL (l : List (List Char)) : List Char := l.getLastD []

/-- Head of a split result (never empty, so the default is dead). -/
def headDL (l : List (List Char)) : List Char := l.headD []

/-- Go `strings.TrimSuffix`: drop `suf` from the end when present. -/
def dropSuffixList (l suf : List Char) : List Char :=
  if suf.length ≤ l.length ∧ l.drop (l.length - suf.length) = suf then
    l.take (l.length - suf.length)
  else l

/-- ASCII whitespace recognised by `strings.TrimSpace` on the data this
pipeline produces (the path text only ever contains spaces introduced for
slashes, plus the original URL characters). -/
def isSpaceChar (c : Char) : Bool := c == ' ' || c == '\t' || c == '\n' || c == '\r'

/-- Go `strings.TrimSpace`. -/
def trimList (l : List Char) : List Char :=
  ((l.dropWhile isSpaceChar).reverse.dropWhile isSpaceChar).reverse

/-- ASCII decimal digit test (`'0' <= c && c <= '9'`, as in `strconv`). -/
def isDigitChar (c : Char) : Bool := 48 ≤ c.toNat && c.toNat ≤ 57

/-- Go `strconv.ParseInt(s, 10, 32)`: optional single sign, one or more
ASCII digits, value within the `int32` range; `none` models a non-nil
returned error (syntax or range). -/
def parseInt32 (s : String) : Option Int :=
  let core (neg : Bool) (ds : List Char) : Option Int :=
    if ds = [] then none
    else if ds.all isDigitChar then
      let n : Nat := ds.foldl (fun a c => a * 10 + (c.toNat - 48)) 0
      let v : Int := if neg then -(n : Int) else (n : Int)
      if -2147483648 ≤ v ∧ v ≤ 2147483647 then some v else none
    else none
  match s.data with
  | '+' :: rest => core false rest
  | '-' :: rest => core true rest
  | l => core false l

/-! ## Association lists modelling Go maps

Go map reads (`m[k]`) and writes (`m[k] = v`) are modelled by first-match
lookup and in-place update on an association list kept in insertion order;
ranging over the map is modelled as ranging over this list. -/

/-- Go map read `v, ok := m[k]`. -/
def lookupA {α : Type} (m : List (String × α)) (k : String) : Option α :=
  match m with
  | [] => none
  | (k', v) :: t => if k' = k then some v else lookupA t k

/-- Go map write `m[k] = v`: replace the binding when present, otherwise
append a new one. -/
def updateA {α : Type} (m : List (String × α)) (k : String) (v : α) :
    List (String × α) :=
  match m with
  | [] => [(k, v)]
  | (k', v') :: t => if k' = k then (k, v) :: t else (k', v') :: updateA t k v

/-! ## Data model (`type Page`, `type Use`, `type Vec`, `type Gif`) -/

/-- `type Page struct { URL, Timestamp string }` -/
structure Page where
  url : String
  timestamp : String
deriving DecidableEq

/-- `type Use struct`, field for field. -/
structure Use where
  url : String
  timestamp : String
  page : Option Page
  alt : String
  path : String
  filename : String
deriving DecidableEq

/-- `type Vec struct { Vector []float64 }`; components carried opaquely,
modelled as `Int`. -/
structure Vec where
  vector : List Int
deriving DecidableEq

/-- `type Gif struct`, field for field, with Go zero values as defaults.
`Vecs` is a Go slice whose `nil` and empty states are identified (the code
normalises `nil` to `[]Vec{}` before appending). `MNSFW` is a `float32`
carried opaquely, modelled as `Int`. -/
structure Gif where
  checksum : String
  terms : String := ""
  uses : List Use := []
  useCount : Int := 0
  width : Int := 0
  height : Int := 0
  vecs : List Vec := []
  mnsfw : Int := 0
  knsfw : Bool := false
  mspec : String := ""
deriving DecidableEq

/-! ## Line parsing -/

/-- `func splitWaybackURL(u string) (string, string)`:
`strings.SplitN(u, "/", 2)` then indexes element 1, which panics when `u`
contains no `/`; `none` models that panic. -/
def splitWaybackURL (u : String) : Option (String × String) :=
  (splitFirst '/' u.data).map fun p => (String.mk p.1, String.mk p.2)

/-- Result of Go `net/url.Parse`: only the `Path` component is consumed by
this pipeline. -/
structure GoURL where
  path : String
deriving DecidableEq

/-- Models the fragment of Go `net/url.Parse` this pipeline relies on:
parsing fails on ASCII control characters; otherwise the path component is
everything after the `scheme://host` prefix (the whole string when there is
no `://`), truncated at the first query or fragment delimiter.
Percent-decoding is not modelled — the pipeline never inspects decoded
bytes. -/
def findSchemeSep : List Char → Option (List Char × List Char)
  | [] => none
  | ':' :: '/' :: '/' :: rest => some ([], rest)
  | c :: cs => (findSchemeSep cs).map fun p => (c :: p.1, p.2)

/-- Truncate at the first of the stop characters. -/
def cutAt (stops : List Char) (l : List Char) : List Char :=
  l.takeWhile fun c => !(stops.contains c)

/-- `url.Parse` model (see `findSchemeSep`). -/
def urlParse (u : String) : Option GoURL :=
  if u.data.any (fun c => c.toNat < 32 || c.toNat == 127) then none
  else
    let body :=
      match findSchemeSep u.data with
      | some (_, rest) =>
        match splitFirst '/' rest with
        | some (_, ps) => '/' :: ps
        | none => []
      | none => u.data
    some ⟨String.mk (cutAt ['?', '#'] body)⟩

/-- `func parsePage(p string) *Page` (panics, via `splitWaybackURL`, when
`p` contains no `/`). -/
def parsePage (p : String) : Option Page :=
  (splitWaybackURL p).map fun q => { timestamp := q.1, url := q.2 }

/-- `func parseUse(fields []string) (Use, error)`: builds a `Use` from the
split line.  `crash` models the Go panics (missing field 0 or 4, no `/` in
the wayback URLs); `err` models the returned `url.Parse` error. -/
def parseUse (fields : List String) : Outcome Use :=
  match fields.get? 0 with
  | none => .crash
  | some f0 =>
    match splitWaybackURL f0 with
    | none => .crash
    | some (timestamp, u) =>
      match urlParse u with
      | none => .err ("could not parse url '" ++ u ++ "'")
      | some pu =>
        let sp := splitChars '/' u.data
        let filename := String.mk (headDL (splitChars '.' (lastDL sp)))
        let pathText := String.mk (joinWith ' '
          (splitChars '/' (dropSuffixList pu.path.data (filename ++ ".gif").data)))
        match fields.get? 4 with
        | none => .crash
        | some f4 =>
          if f4 ≠ "-/-" then
            match parsePage f4 with
            | none => .crash
            | some page =>
              .ok { url := u, timestamp := timestamp, page := some page,
                    alt := "", path := String.mk (trimList pathText.data),
                    filename := filename }
          else
            .ok { url := u, timestamp := timestamp, page := none,
                  alt := "", path := String.mk (trimList pathText.data),
                  filename := filename }

/-! ## The aggregation pass (`func manifest`) -/

/-- The space-split fields of a manifest line (`strings.Split(line, " ")`). -/
def lineFields (line : String) : List String :=
  (splitChars ' ' line.data).map String.mk

/-- The checksum field (field 1) of a manifest line, with a dead default
(every line of a completed pass has at least two fields). -/
def lineChecksum (l : String) : String := ((lineFields l).get? 1).getD ""

/-- Well-formedness of the `seen` map of `func manifest`: every binding
stores a record whose checksum is its key and whose use count equals its
number of uses, and keys are distinct. -/
def SeenWF (seen : List (String × Gif)) : Prop :=
  (∀ p ∈ seen, (Prod.snd p).checksum = p.1 ∧
      (Prod.snd p).useCount = ((Prod.snd p).uses.length : Int)) ∧
  (seen.map Prod.fst).Nodup

/-- Does `sub` occur at the start of `l`? -/
def leadsWith : List Char → List Char → Bool
  | [], _ => true
  | _ :: _, [] => false
  | a :: as, b :: bs => a == b && leadsWith as bs

/-- Does `sub` occur anywhere in `l`? -/
def hasSub (sub : List Char) : List Char → Bool
  | [] => leadsWith sub []
  | c :: t => leadsWith sub (c :: t) || hasSub sub t

/-- Does the string `sub` occur in the string `s`?  (Used to state what a
log message does or does not name.) -/
def containsStr (s sub : String) : Bool := hasSub sub.data s.data

/-- The error message `fmt.Errorf("bad width '%s': %w", ...)` (the wrapped
`strconv` detail is elided). -/
def badWidthMsg (s : String) : String := "bad width '" ++ s ++ "'"

/-- The error message `fmt.Errorf("bad height '%s': %w", ...)`. -/
def badHeightMsg (s : String) : String := "bad height '" ++ s ++ "'"

/-- The `if/else` of the scan loop in `func manifest`: fetch the seen
record for this checksum, or create one from width/height (fields 2 and 3,
parsed only on first sight of the checksum). -/
def manifestGif0 (seen : List (String × Gif)) (fields : List String)
    (checksum : String) : Outcome Gif :=
  match lookupA seen checksum with
  | some g => .ok g
  | none =>
    match fields.get? 2 with
    | none => .crash
    | some ws =>
      match parseInt32 ws with
      | none => .err (badWidthMsg ws)
      | some w =>
        match fields.get? 3 with
        | none => .crash
        | some hs =>
          match parseInt32 hs with
          | none => .err (badHeightMsg hs)
          | some h =>
            .ok { checksum := checksum, uses := [], width := w, height := h }

/-- One iteration of the scan loop in `func manifest`: reads the checksum
(field 1), fetches or creates the record (`manifestGif0`), increments the
use count, parses and appends the `Use`, and writes the record back. -/
def manifestLine (seen : List (String × Gif)) (line : String) :
    Outcome (List (String × Gif)) :=
  match (lineFields line).get? 1 with
  | none => .crash
  | some checksum =>
    match manifestGif0 seen (lineFields line) checksum with
    | .crash => .crash
    | .err e => .err e
    | .ok g =>
      match parseUse (lineFields line) with
      | .crash => .crash
      | .err e => .err e
      | .ok use =>
        .ok (updateA seen checksum
          { g with useCount := g.useCount + 1, uses := g.uses ++ [use] })

/-- The whole scan loop of `func manifest`, threading the `seen` map. -/
def manifestAgg (seen : List (String × Gif)) :
    List String → Outcome (List (String × Gif))
  | [] => .ok seen
  | l :: ls =>
    match manifestLine seen l with
    | .ok seen' => manifestAgg seen' ls
    | .err e => .err e
    | .crash => .crash

/-- `func manifest`: scan every line, then emit the map's values (the
records written to `gifcities.jsonl`). -/
def manifest (lines : List String) : Outcome (List Gif) :=
  match manifestAgg [] lines with
  | .ok seen => .ok (seen.map Prod.snd)
  | .err e => .err e
  | .crash => .crash

/-! ## The enrichment merger (`func vecmerge`)

Inputs: the already-deserialized base record set read from
`gifcities.jsonl`, and the enrichment shards in the order the caller
supplies them (`os.ReadDir` order), each a shard name (only used for log
context in this model; the code itself never prints it) together with its
already-deserialized lines. -/

/-- `type vecLine struct { Hash string; MNSFW float32; Mspec string;
Embedding []float64 }`; float payloads carried opaquely, modelled as
`Int`. -/
structure VecLine where
  hash : String
  mnsfw : Int
  mspec : String
  embedding : List Int
deriving DecidableEq

/-- The warning `fmt.Fprintf(os.Stderr, "WARN checksum '%s' not found in
gifcities.jsonl\n", vl.Hash)` (without the trailing newline). -/
def vecWarnMsg (h : String) : String :=
  "WARN checksum '" ++ h ++ "' not found in gifcities.jsonl"

/-- Loading `gifcities.jsonl` into the `gifs` map
(`gifs[gif.Checksum] = &gif`, a later duplicate checksum overwriting the
earlier entry). -/
def buildBase : List Gif → List (String × Gif) → List (String × Gif)
  | [], m => m
  | g :: gs, m => buildBase gs (updateA m g.checksum g)

/-- The scan loop over one or more enrichment lines, threading the `gifs`
map and the warnings printed so far.  Per line: look the hash up; on a
miss print the warning and leave the map untouched; on a hit append a
`Vec` built from the embedding and overwrite `MNSFW` and `Mspec`. -/
def vecLines (m : List (String × Gif)) (ws : List String) :
    List VecLine → List (String × Gif) × List String
  | [] => (m, ws)
  | vl :: vls =>
    match lookupA m vl.hash with
    | none => vecLines m (ws ++ [vecWarnMsg vl.hash]) vls
    | some g =>
      vecLines (updateA m vl.hash
        { g with vecs := g.vecs ++ [{ vector := vl.embedding }],
                 mnsfw := vl.mnsfw, mspec := vl.mspec }) ws vls

/-- `func vecmerge`: load the base set, scan every shard in the given
order, then emit the map's values together with the warnings printed to
stderr.  (Deserialization and I/O failures, handled upstream of this logic
by `encoding/json` and `bufio`, are abstracted away.) -/
def vecmerge (base : List Gif) (shards : List (String × List VecLine)) :
    List Gif × List String :=
  ((shards.foldl (fun acc sh => vecLines acc.1 acc.2 sh.2)
      (buildBase base [], [])).1.map Prod.snd,
   (shards.foldl (fun acc sh => vecLines acc.1 acc.2 sh.2)
      (buildBase base [], [])).2)

/-! ## The reconciliation resolver (`func fixmanifest`)

Inputs: the already-deserialized `unique_from_spark.jsonl` lines (the
bulk-job output) and the raw manifest lines.  The Go code shares one
`*Gif` between the two lookup maps; the model makes the sharing explicit
with a record store addressed by index, both maps holding indices. -/

/-- `type soLine struct { Hash, URL, TS string; Gifb64 string }` (the
base64 payload is irrelevant to the resolver and omitted). -/
structure SoLine where
  hash : String
  url : String
  ts : String
deriving DecidableEq

/-- The mutable state of `func fixmanifest`: the shared records plus the
two index maps and the log output. -/
structure FixState where
  store : List Gif
  byKey : List (String × Nat)
  byHash : List (String × Nat)
  warnings : List String
deriving DecidableEq

/-- Dead default for indexed store reads (every index the maps hold is in
range, as proved below). -/
def emptyGif : Gif := { checksum := "" }

/-- The initial resolver state (`gifsByTSURL`, `gifsByHash` empty). -/
def fixInit : FixState :=
  { store := [], byKey := [], byHash := [], warnings := [] }

/-- The composite key `fmt.Sprintf("%s/%s", ts, url)`. -/
def tsURLKey (ts u : String) : String := ts ++ "/" ++ u

/-- The warning `log.Printf("FAILED TO FIND %s IN THE SPARK OUTPUT", key)`
(without the `log` timestamp prefix). -/
def sparkMissMsg (key : String) : String :=
  "FAILED TO FIND " ++ key ++ " IN THE SPARK OUTPUT"

/-- Phase 1, one spark-output line: when its composite key is new, create
a skeletal record (checksum populated, uses empty) and register it in both
maps (the by-hash binding overwrites any earlier one for the same hash);
otherwise do nothing. -/
def sparkStep (st : FixState) (sol : SoLine) : FixState :=
  match lookupA st.byKey (tsURLKey sol.ts sol.url) with
  | some _ => st
  | none =>
    { st with
      store := st.store ++ [{ checksum := sol.hash, uses := [] }],
      byKey := st.byKey ++ [(tsURLKey sol.ts sol.url, st.store.length)],
      byHash := updateA st.byHash sol.hash st.store.length }

/-- Phase 1 over all spark-output lines. -/
def sparkScan : FixState → List SoLine → FixState
  | st, [] => st
  | st, sol :: sols => sparkScan (sparkStep st sol) sols

/-- The two-phase lookup of `func fixmanifest`: the composite-key index is
tried first, the by-checksum index only on a miss. -/
def fixResolve (st : FixState) (key hash : String) : Option Nat :=
  match lookupA st.byKey key with
  | some i => some i
  | none => lookupA st.byHash hash

/-- The body of the hit case of phase 2 of `func fixmanifest`: parse width
and height (fatal on failure, last-write-wins on the resolved record),
parse the `Use` and append it, incrementing the count.  `i` is the index
of the resolved shared record. -/
def fixApply (st : FixState) (i : Nat) (fields : List String) :
    Outcome FixState :=
  match fields.get? 2 with
  | none => .crash
  | some ws =>
    match parseInt32 ws with
    | none => .err (badWidthMsg ws)
    | some w =>
      match fields.get? 3 with
      | none => .crash
      | some hs =>
        match parseInt32 hs with
        | none => .err (badHeightMsg hs)
        | some h =>
          match parseUse fields with
          | .crash => .crash
          | .err e => .err e
          | .ok use =>
            let g := st.store.getD i emptyGif
            let g' : Gif :=
              { g with width := w, height := h,
                       uses := g.uses ++ [use],
                       useCount := g.useCount + 1 }
            .ok { st with store := st.store.set i g' }

/-- Phase 2, one manifest line: split field 0 into timestamp and URL
(panic when it has no `/`), read the checksum from field 1 (panic when
absent), resolve by composite key first and by checksum second
(`fixResolve`); on a double miss log and skip; on a hit run `fixApply`. -/
def fixLine (st : FixState) (line : String) : Outcome FixState :=
  match (lineFields line).get? 0 with
  | none => .crash
  | some f0 =>
    match splitWaybackURL f0 with
    | none => .crash
    | some (timestamp, u) =>
      match (lineFields line).get? 1 with
      | none => .crash
      | some hash =>
        match fixResolve st (tsURLKey timestamp u) hash with
        | none =>
          .ok { st with warnings := st.warnings ++ [sparkMissMsg (tsURLKey timestamp u)] }
        | some i => fixApply st i (lineFields line)

/-- Phase 2 over all manifest lines. -/
def fixScan (st : FixState) : List String → Outcome FixState
  | [] => .ok st
  | l :: ls =>
    match fixLine st l with
    | .ok st' => fixScan st' ls
    | .err e => .err e
    | .crash => .crash

/-- Emission: `for _, gif := range gifsByTSURL` dereferences the shared
records; modelled by reading the store through the by-key index map in
insertion order. -/
def fixEmit (st : FixState) : List Gif :=
  st.byKey.map fun p => st.store.getD p.2 emptyGif

/-- `func fixmanifest`: build the indices from the spark output, scan the
manifest, then emit the records written to `golden_master.gifcities.jsonl`
together with the logged warnings. -/
def fixmanifest (spark : List SoLine) (man : List String) :
    Outcome (List Gif × List String) :=
  match fixScan (sparkScan fixInit spark) man with
  | .ok st => .ok (fixEmit st, st.warnings)
  | .err e => .err e
  | .crash => .crash

/-! ## Concrete fixtures used by witnesses and counterexamples -/

/-- A minimal valid manifest line: `Use` at `1/u`, checksum `C`, 7×8, no
containing page. -/
def lineC78 : String := "1/u C 7 8 -/-"

/-- Same checksum as `lineC78` with different dimensions. -/
def lineC99 : String := "1/u C 9 9 -/-"

/-- The `Use` parsed from field 0 = `1/u` with field 4 the sentinel. -/
def useU1 : Use :=
  { url := "u", timestamp := "1", page := none, alt := "", path := "u",
    filename := "u" }

/-- The record `manifest [lineC78]` emits. -/
def gifC78 : Gif :=
  { checksum := "C", useCount := 1, width := 7, height := 8, uses := [useU1] }

/-- A bulk-job output line with hash `H`. -/
def solHu1 : SoLine := { hash := "H", url := "u1", ts := "1" }

/-- A second bulk-job output line with the same hash under a different
composite key. -/
def solHu2 : SoLine := { hash := "H", url := "u2", ts := "1" }

/-- The skeletal record the resolver builds for hash `H`. -/
def skelH : Gif := { checksum := "H", uses := [] }

/-- A resolver state with two skeletal records, indexed both ways, as
phase 1 would build it from two bulk-output lines with hashes `H1`,
`H2`. -/
def stW : FixState :=
  { store := [{ checksum := "H1", uses := [] }, { checksum := "H2", uses := [] }],
    byKey := [("20200101000000/http://x/y.gif", 0), ("9/q", 1)],
    byHash := [("H1", 0), ("H2", 1)],
    warnings := [] }

/-- A manifest line whose composite key matches record 0 of `stW` while
its checksum field `H2` names record 1: the composite key must win. -/
def lineHitW : String := "20200101000000/http://x/y.gif H2 3 4 -/-"

/-- A manifest line matching `stW` neither by key nor by checksum. -/
def lineMissW : String := "2/z H3 3 4 -/-"

/-- A manifest line matching `stW` by checksum `H1` only. -/
def lineHashW : String := "3/w H1 5 6 -/-"

/-- The bulk-output line behind record 0 of `stW`. -/
def solW : SoLine :=
  { hash := "H1", url := "http://x/y.gif", ts := "20200101000000" }

/-- A base record for the enrichment merger. -/
def gifX : Gif := { checksum := "X" }

/-- Enrichment record naming `X`, first shard. -/
def vlA : VecLine := { hash := "X", mnsfw := 1, mspec := "m1", embedding := [1] }

/-- Enrichment record naming `X`, second shard, different score. -/
def vlB : VecLine := { hash := "X", mnsfw := 2, mspec := "m2", embedding := [2] }

/-- Enrichment record naming a checksum absent from the base set. -/
def vlY : VecLine := { hash := "Y", mnsfw := 3, mspec := "m3", embedding := [] }

/-- Two enrichment shards both naming `X`, in caller order A then B. -/
def shardsAB : List (String × List VecLine) := [("A", [vlA]), ("B", [vlB])]

/-- A line repeating checksum `C` with an unparseable width field. -/
def lineCxx : String := "1/u C xx 8 -/-"

/-- A valid manifest line whose field 4 carries a page reference. -/
def linePg : String := "1/u C 7 8 2/p"

/-- The `Use` parsed from `linePg`: page present. -/
def usePg : Use :=
  { url := "u", timestamp := "1",
    page := some { url := "p", timestamp := "2" }, alt := "", path := "u",
    filename := "u" }

/-! ## Derived notions used in the statements below -/

/-- The record written back by the resolver's hit case, as a function of
the record it read. -/
def fixUpd (g : Gif) (w h : Int) (use : Use) : Gif :=
  { g with width := w, height := h,
           uses := g.uses ++ [use], useCount := g.useCount + 1 }

/-- Well-formedness of the resolver state: the by-key index holds the
store positions in order (one binding per record), every by-hash binding
points at an in-range record whose checksum is the bound hash, and every
record's use count equals its number of uses. -/
def FixWF (st : FixState) : Prop :=
  st.byKey.map Prod.snd = List.range st.store.length ∧
  (∀ p ∈ st.byHash, p.2 < st.store.length ∧
    (st.store.getD p.2 emptyGif).checksum = p.1) ∧
  (∀ g ∈ st.store, g.useCount = (g.uses.length : Int))

/-- The net effect on one record of the enrichment lines naming its
checksum, in processing order. -/
def vecApply (g : Gif) (rs : List VecLine) : Gif :=
  rs.foldl (fun g v =>
    { g with vecs := g.vecs ++ [{ vector := v.embedding }],
             mnsfw := v.mnsfw, mspec := v.mspec }) g

/-- The enrichment records naming checksum `c`, over all shards in
processing order. -/
def enrichFor (shards : List (String × List VecLine)) (c : String) :
    List VecLine :=
  ((shards.map Prod.snd).flatten).filter (fun v => v.hash = c)

/-- Dead default for `getLastD` on nonempty lists of enrichment records. -/
def noVecLine : VecLine :=
  { hash := "", mnsfw := 0, mspec := "", embedding := [] }

/-! ## Lemmas about the Go-map model -/

theorem lookupA_updateA {α : Type} (m : List (String × α)) (k c : String)
    (v : α) :
    lookupA (updateA m k v) c = if k = c then some v else lookupA m c := by
  induction m with
  | nil =>
    by_cases h : k = c <;> simp [updateA, lookupA, h]
  | cons p t ih =>
    obtain ⟨k', v'⟩ := p
    by_cases h1 : k' = k
    · subst h1
      by_cases h2 : k' = c <;> simp [updateA, lookupA, h2]
    · by_cases h2 : k' = c
      · subst h2
        have hkc : ¬ (k = k') := fun h => h1 h.symm
        simp [updateA, lookupA, h1, hkc]
      · simp [updateA, lookupA, h1, h2, ih]

theorem lookupA_mem {α : Type} {m : List (String × α)} {k : String} {v : α}
    (h : lookupA m k = some v) : (k, v) ∈ m := by
  induction m with
  | nil => simp [lookupA] at h
  | cons p t ih =>
    obtain ⟨k', v'⟩ := p
    by_cases h1 : k' = k
    · subst h1
      simp [lookupA] at h
      simp [h]
    · simp [lookupA, h1] at h
      exact List.mem_cons_of_mem _ (ih h)

theorem snd_mem_of_lookupA {α : Type} {m : List (String × α)} {k : String}
    {v : α} (h : lookupA m k = some v) : v ∈ m.map Prod.snd := by
  exact List.mem_map.mpr ⟨(k, v), lookupA_mem h, rfl⟩

theorem lookupA_eq_none_iff {α : Type} {m : List (String × α)} {k : String} :
    lookupA m k = none ↔ k ∉ m.map Prod.fst := by
  induction m with
  | nil => simp [lookupA]
  | cons p t ih =>
    obtain ⟨k', v'⟩ := p
    by_cases h1 : k' = k
    · subst h1
      simp [lookupA]
    · have hk : ¬ k = k' := fun h => h1 h.symm
      simp [lookupA, h1, ih, hk]

theorem mem_updateA {α : Type} {m : List (String × α)} {k : String} {v : α}
    {p : String × α} (h : p ∈ updateA m k v) : p ∈ m ∨ p = (k, v) := by
  induction m with
  | nil => simp [updateA] at h; simp [h]
  | cons q t ih =>
    obtain ⟨k', v'⟩ := q
    by_cases h1 : k' = k
    · subst h1
      simp [updateA] at h
      rcases h with h | h
      · right; simp [h]
      · left; exact List.mem_cons_of_mem _ h
    · simp [updateA, h1] at h
      rcases h with h | h
      · left; simp [h]
      · rcases ih h with h' | h'
        · left; exact List.mem_cons_of_mem _ h'
        · right; exact h'

theorem keys_updateA_of_some {α : Type} {m : List (String × α)} {k : String}
    {g : α} (v : α) (h : lookupA m k = some g) :
    (updateA m k v).map Prod.fst = m.map Prod.fst := by
  induction m with
  | nil => simp [lookupA] at h
  | cons p t ih =>
    obtain ⟨k', v'⟩ := p
    by_cases h1 : k' = k
    · subst h1
      simp [updateA]
    · simp [lookupA, h1] at h
      simp [updateA, h1, ih h]

theorem keys_updateA_of_none {α : Type} {m : List (String × α)} {k : String}
    (v : α) (h : lookupA m k = none) :
    (updateA m k v).map Prod.fst = m.map Prod.fst ++ [k] := by
  induction m with
  | nil => simp [updateA]
  | cons p t ih =>
    obtain ⟨k', v'⟩ := p
    by_cases h1 : k' = k
    · subst h1
      simp [lookupA] at h
    · simp [lookupA, h1] at h
      simp [updateA, h1, ih h]

/-! ## Inversion lemmas for the aggregation pass -/

theorem manifestGif0_ok_inv {seen : List (String × Gif)}
    {fields : List String} {cs : String} {g0 : Gif}
    (h : manifestGif0 seen fields cs = .ok g0) :
    lookupA seen cs = some g0 ∨
      (lookupA seen cs = none ∧ g0.checksum = cs ∧ g0.uses = [] ∧
       g0.useCount = 0 ∧
       (∃ ws, fields.get? 2 = some ws ∧ parseInt32 ws = some g0.width) ∧
       (∃ hs, fields.get? 3 = some hs ∧ parseInt32 hs = some g0.height)) := by
  unfold manifestGif0 at h
  split at h
  next g hl =>
    cases h
    exact Or.inl hl
  next hl =>
    split at h
    next => cases h
    next ws hws =>
      split at h
      next => cases h
      next w hw =>
        split at h
        next => cases h
        next hs hhs =>
          split at h
          next => cases h
          next ht hh =>
            cases h
            exact Or.inr ⟨hl, rfl, rfl, rfl, ⟨ws, hws, hw⟩, ⟨hs, hhs, hh⟩⟩

theorem manifestLine_ok_inv {seen seen' : List (String × Gif)} {l : String}
    (h : manifestLine seen l = .ok seen') :
    ∃ cs g0 use,
      (lineFields l).get? 1 = some cs ∧
      manifestGif0 seen (lineFields l) cs = .ok g0 ∧
      parseUse (lineFields l) = .ok use ∧
      seen' = updateA seen cs
        { g0 with useCount := g0.useCount + 1, uses := g0.uses ++ [use] } := by
  unfold manifestLine at h
  split at h
  next => cases h
  next cs hcs =>
    split at h
    next => cases h
    next e he => cases h
    next g hg =>
      split at h
      next => cases h
      next e he => cases h
      next use huse =>
        cases h
        exact ⟨cs, g, use, hcs, hg, huse, rfl⟩

/-! ## Invariants of the aggregation pass -/

theorem manifestLine_WF {seen seen' : List (String × Gif)} {l : String}
    (hwf : SeenWF seen) (h : manifestLine seen l = .ok seen') :
    SeenWF seen' := by
  obtain ⟨cs, g0, use, hcs, hg, huse, rfl⟩ := manifestLine_ok_inv h
  obtain ⟨hprop, hkeys⟩ := hwf
  have hg0 : g0.checksum = cs ∧ g0.useCount = (g0.uses.length : Int) := by
    rcases manifestGif0_ok_inv hg with hl | ⟨_, hcs0, hu, hc, _⟩
    · exact hprop _ (lookupA_mem hl)
    · exact ⟨hcs0, by simp [hu, hc]⟩
  constructor
  · intro p hp
    rcases mem_updateA hp with hp' | rfl
    · exact hprop _ hp'
    · refine ⟨hg0.1, ?_⟩
      simp [hg0.2]
  · rcases manifestGif0_ok_inv hg with hl | ⟨hl, _⟩
    · rw [keys_updateA_of_some _ hl]; exact hkeys
    · rw [keys_updateA_of_none _ hl]
      refine List.Nodup.append hkeys (List.nodup_singleton _) ?_
      intro a ha hb
      simp only [List.mem_singleton] at hb
      subst hb
      exact (lookupA_eq_none_iff.mp hl) ha

theorem manifestAgg_WF {ls : List String} :
    ∀ {seen seen' : List (String × Gif)}, SeenWF seen →
      manifestAgg seen ls = .ok seen' → SeenWF seen' := by
  induction ls with
  | nil =>
    intro seen seen' hwf h
    simp only [manifestAgg] at h
    cases h
    exact hwf
  | cons l ls ih =>
    intro seen seen' hwf h
    simp only [manifestAgg] at h
    split at h
    next s hs => exact ih (manifestLine_WF hwf hs) h
    next => cases h
    next => cases h

theorem manifestAgg_append (seen : List (String × Gif)) (xs ys : List String) :
    manifestAgg seen (xs ++ ys) =
      match manifestAgg seen xs with
      | .ok s => manifestAgg s ys
      | .err e => .err e
      | .crash => .crash := by
  induction xs generalizing seen with
  | nil => simp [manifestAgg]
  | cons l ls ih =>
    simp only [List.cons_append, manifestAgg]
    cases manifestLine seen l <;> simp [ih]

theorem manifestLine_preserve {seen seen' : List (String × Gif)} {l : String}
    {c : String} {g : Gif} (h : manifestLine seen l = .ok seen')
    (hc : lookupA seen c = some g) :
    ∃ g', lookupA seen' c = some g' ∧ g'.checksum = g.checksum ∧
      g'.width = g.width ∧ g'.height = g.height := by
  obtain ⟨cs, g0, use, hcs, hg, huse, rfl⟩ := manifestLine_ok_inv h
  rw [lookupA_updateA]
  by_cases hkc : cs = c
  · subst hkc
    rcases manifestGif0_ok_inv hg with hl | ⟨hl, _⟩
    · rw [hc] at hl
      cases hl
      refine ⟨{ g with useCount := g.useCount + 1, uses := g.uses ++ [use] },
        ?_, rfl, rfl, rfl⟩
      rw [if_pos rfl]
    · rw [hl] at hc; cases hc
  · rw [if_neg hkc]
    exact ⟨g, hc, rfl, rfl, rfl⟩

theorem manifestAgg_preserve {ls : List String} :
    ∀ {seen seen' : List (String × Gif)} {c : String} {g : Gif},
      manifestAgg seen ls = .ok seen' → lookupA seen c = some g →
      ∃ g', lookupA seen' c = some g' ∧ g'.checksum = g.checksum ∧
        g'.width = g.width ∧ g'.height = g.height := by
  induction ls with
  | nil =>
    intro seen seen' c g h hc
    simp only [manifestAgg] at h
    cases h
    exact ⟨g, hc, rfl, rfl, rfl⟩
  | cons l ls ih =>
    intro seen seen' c g h hc
    simp only [manifestAgg] at h
    split at h
    next s hs =>
      obtain ⟨g1, hg1, e1, e2, e3⟩ := manifestLine_preserve hs hc
      obtain ⟨g', hg', f1, f2, f3⟩ := ih h hg1
      exact ⟨g', hg', f1.trans e1, f2.trans e2, f3.trans e3⟩
    next => cases h
    next => cases h

theorem manifestLine_new_keys {seen seen' : List (String × Gif)} {l c : String}
    (h : manifestLine seen l = .ok seen') (hc : lookupA seen c = none)
    (hne : lineChecksum l ≠ c) : lookupA seen' c = none := by
  obtain ⟨cs, g0, use, hcs, hg, huse, rfl⟩ := manifestLine_ok_inv h
  have hcl : lineChecksum l = cs := by unfold lineChecksum; rw [hcs]; rfl
  rw [lookupA_updateA, if_neg (fun hh => hne (hcl.trans hh)), hc]

theorem manifestAgg_new_keys {ls : List String} :
    ∀ {seen seen' : List (String × Gif)} {c : String},
      manifestAgg seen ls = .ok seen' → lookupA seen c = none →
      (∀ l ∈ ls, lineChecksum l ≠ c) → lookupA seen' c = none := by
  induction ls with
  | nil =>
    intro seen seen' c h hc _
    simp only [manifestAgg] at h
    cases h
    exact hc
  | cons l ls ih =>
    intro seen seen' c h hc hne
    simp only [manifestAgg] at h
    split at h
    next s hs =>
      exact ih h (manifestLine_new_keys hs hc (hne l (by simp)))
        (fun l' hl' => hne l' (by simp [hl']))
    next => cases h
    next => cases h

theorem manifest_ok_inv {lines : List String} {gifs : List Gif}
    (h : manifest lines = .ok gifs) :
    ∃ seen, manifestAgg [] lines = .ok seen ∧ gifs = seen.map Prod.snd := by
  unfold manifest at h
  split at h
  next s hs => cases h; exact ⟨s, hs, rfl⟩
  next => cases h
  next => cases h

theorem SeenWF_nil : SeenWF [] := ⟨by simp, by simp⟩

/-- C1: in the aggregation pass, the record emitted for a checksum takes
its width and height from the first manifest line bearing that checksum
(they are the successfully parsed fields 2 and 3 of that first line);
width/height fields on later lines with the same checksum are ignored. -/
theorem manifest_first_write_wins
    (pre post : List String) (l : String) (gifs : List Gif)
    (hrun : manifest (pre ++ l :: post) = .ok gifs)
    (hfirst : ∀ l' ∈ pre, lineChecksum l' ≠ lineChecksum l) :
    ∃ g ∈ gifs, g.checksum = lineChecksum l ∧
      (∃ ws, (lineFields l).get? 2 = some ws ∧ parseInt32 ws = some g.width) ∧
      (∃ hs, (lineFields l).get? 3 = some hs ∧ parseInt32 hs = some g.height) := by
  obtain ⟨seenF, hagg, rfl⟩ := manifest_ok_inv hrun
  rw [manifestAgg_append] at hagg
  cases hpre : manifestAgg [] pre with
  | ok seen0 =>
    rw [hpre] at hagg
    have h1 : manifestAgg seen0 (l :: post) = .ok seenF := hagg
    simp only [manifestAgg] at h1
    split at h1
    case _ seen1 hline =>
      have hnone0 : lookupA ([] : List (String × Gif)) (lineChecksum l) = none := rfl
      have hnone : lookupA seen0 (lineChecksum l) = none :=
        manifestAgg_new_keys hpre hnone0 hfirst
      obtain ⟨cs, g0, use, hcs, hg, huse, hupd⟩ := manifestLine_ok_inv hline
      have hcl : lineChecksum l = cs := by unfold lineChecksum; rw [hcs]; rfl
      rw [hcl] at hnone
      rcases manifestGif0_ok_inv hg with hl | ⟨_, hcsum, _, _, hwd, hht⟩
      · rw [hnone] at hl; cases hl
      · have hlook1 : lookupA seen1 cs =
            some { g0 with useCount := g0.useCount + 1, uses := g0.uses ++ [use] } := by
          rw [hupd, lookupA_updateA, if_pos rfl]
        obtain ⟨g', hg', e1, e2, e3⟩ := manifestAgg_preserve h1 hlook1
        refine ⟨g', snd_mem_of_lookupA hg', ?_, ?_, ?_⟩
        · rw [hcl, e1]; exact hcsum
        · obtain ⟨ws, hws, hpw⟩ := hwd
          exact ⟨ws, hws, by rw [e2]; exact hpw⟩
        · obtain ⟨hs, hhs, hph⟩ := hht
          exact ⟨hs, hhs, by rw [e3]; exact hph⟩
    case _ => cases h1
    case _ => cases h1
  | err e =>
    rw [hpre] at hagg
    exact Outcome.noConfusion hagg
  | crash =>
    rw [hpre] at hagg
    exact Outcome.noConfusion hagg

/-! ## Lemmas about the reconciliation resolver -/

theorem set_getD_self {α : Type} (l : List α) (i : Nat) (d : α) :
    l.set i (l.getD i d) = l := by
  apply List.ext_get?
  intro n
  by_cases h : i = n
  · subst h
    rw [List.get?_set_eq]
    cases hg : l.get? i with
    | none => rfl
    | some a =>
      show some (l.getD i d) = some a
      rw [List.getD_eq_get?, hg]
      rfl
  · exact List.get?_set_ne _ _ h

theorem fixApply_ok_inv {st st' : FixState} {i : Nat} {fields : List String}
    (h : fixApply st i fields = .ok st') :
    ∃ w hgt use,
      (∃ ws, fields.get? 2 = some ws ∧ parseInt32 ws = some w) ∧
      (∃ hs, fields.get? 3 = some hs ∧ parseInt32 hs = some hgt) ∧
      parseUse fields = .ok use ∧
      st' = { st with
              store := st.store.set i
                (fixUpd (st.store.getD i emptyGif) w hgt use) } := by
  unfold fixApply at h
  split at h
  next => cases h
  next ws hws =>
    split at h
    next => cases h
    next w hw =>
      split at h
      next => cases h
      next hs hhs =>
        split at h
        next => cases h
        next hgt hh =>
          split at h
          next => cases h
          next e he => cases h
          next use huse =>
            cases h
            exact ⟨w, hgt, use, ⟨ws, hws, hw⟩, ⟨hs, hhs, hh⟩, huse, rfl⟩

theorem fixLine_ok_inv {st st' : FixState} {line : String}
    (h : fixLine st line = .ok st') :
    ∃ f0 ts u hash,
      (lineFields line).get? 0 = some f0 ∧
      splitWaybackURL f0 = some (ts, u) ∧
      (lineFields line).get? 1 = some hash ∧
      ((fixResolve st (tsURLKey ts u) hash = none ∧
         st' = { st with warnings :=
           st.warnings ++ [sparkMissMsg (tsURLKey ts u)] }) ∨
       (∃ i, fixResolve st (tsURLKey ts u) hash = some i ∧
         fixApply st i (lineFields line) = .ok st')) := by
  unfold fixLine at h
  split at h
  next => cases h
  next f0 hf0 =>
    split at h
    next => cases h
    next ts u hsplit =>
      split at h
      next => cases h
      next hash hhash =>
        split at h
        next hres =>
          cases h
          exact ⟨f0, ts, u, hash, hf0, hsplit, hhash, Or.inl ⟨hres, rfl⟩⟩
        next i hres =>
          exact ⟨f0, ts, u, hash, hf0, hsplit, hhash, Or.inr ⟨i, hres, h⟩⟩

theorem fixApply_frame {st st' : FixState} {i : Nat} {fields : List String}
    (h : fixApply st i fields = .ok st') :
    st'.byKey = st.byKey ∧ st'.byHash = st.byHash ∧
    st'.warnings = st.warnings ∧
    st'.store.length = st.store.length ∧
    st'.store.map (fun g => g.checksum) = st.store.map (fun g => g.checksum) ∧
    ∀ j, j ≠ i → st'.store.get? j = st.store.get? j := by
  obtain ⟨w, hgt, use, _, _, _, rfl⟩ := fixApply_ok_inv h
  refine ⟨rfl, rfl, rfl, by simp, ?_, ?_⟩
  · rw [List.map_set]
    have : (fixUpd (st.store.getD i emptyGif) w hgt use).checksum =
        (st.store.getD i emptyGif).checksum := rfl
    rw [this]
    have hget : (st.store.getD i emptyGif).checksum =
        (st.store.map (fun g => g.checksum)).getD i emptyGif.checksum := by
      rw [List.getD_eq_get?, List.getD_eq_get?, List.get?_map]
      cases st.store.get? i <;> rfl
    rw [hget, set_getD_self]
  · intro j hj
    exact List.get?_set_ne _ _ (fun hh => hj hh.symm)

theorem fixLine_frame {st st' : FixState} {line : String}
    (h : fixLine st line = .ok st') :
    st'.byKey = st.byKey ∧ st'.byHash = st.byHash ∧
    st'.store.length = st.store.length ∧
    st'.store.map (fun g => g.checksum) = st.store.map (fun g => g.checksum) := by
  obtain ⟨f0, ts, u, hash, _, _, _, hcase⟩ := fixLine_ok_inv h
  rcases hcase with ⟨_, rfl⟩ | ⟨i, _, happ⟩
  · exact ⟨rfl, rfl, rfl, rfl⟩
  · obtain ⟨h1, h2, _, h4, h5, _⟩ := fixApply_frame happ
    exact ⟨h1, h2, h4, h5⟩

theorem fixScan_frame {ls : List String} :
    ∀ {st st' : FixState}, fixScan st ls = .ok st' →
      st'.byKey = st.byKey ∧ st'.byHash = st.byHash ∧
      st'.store.length = st.store.length ∧
      st'.store.map (fun g => g.checksum) = st.store.map (fun g => g.checksum) := by
  induction ls with
  | nil =>
    intro st st' h
    simp only [fixScan] at h
    cases h
    exact ⟨rfl, rfl, rfl, rfl⟩
  | cons l ls ih =>
    intro st st' h
    simp only [fixScan] at h
    split at h
    next s hs =>
      obtain ⟨a1, a2, a3, a4⟩ := fixLine_frame hs
      obtain ⟨b1, b2, b3, b4⟩ := ih h
      exact ⟨b1.trans a1, b2.trans a2, b3.trans a3, b4.trans a4⟩
    next => cases h
    next => cases h

theorem FixWF_init : FixWF fixInit :=
  ⟨rfl, by simp [fixInit], by simp [fixInit]⟩

theorem fixApply_WF {st st' : FixState} {i : Nat} {fields : List String}
    (hwf : FixWF st) (h : fixApply st i fields = .ok st') : FixWF st' := by
  obtain ⟨w, hgt, use, _, _, _, rfl⟩ := fixApply_ok_inv h
  obtain ⟨h1, h2, h3⟩ := hwf
  refine ⟨by simpa using h1, ?_, ?_⟩
  · intro p hp
    obtain ⟨hlt, hck⟩ := h2 p hp
    refine ⟨by simpa using hlt, ?_⟩
    by_cases hpi : p.2 = i
    · subst hpi
      have heq : (st.store.set p.2
            (fixUpd (st.store.getD p.2 emptyGif) w hgt use)).getD p.2 emptyGif
          = fixUpd (st.store.getD p.2 emptyGif) w hgt use := by
        rw [List.getD_eq_get?, List.get?_set_eq]
        cases hgi : st.store.get? p.2 with
        | none => exact absurd (List.get?_eq_none.mp hgi) (Nat.not_le.mpr hlt)
        | some g0 => rfl
      rw [heq]
      exact hck
    · rw [List.getD_eq_get?, List.get?_set_ne _ _ (fun hh => hpi hh.symm),
        ← List.getD_eq_get?]
      exact hck
  · intro g hg
    rcases List.mem_or_eq_of_mem_set hg with hmem | rfl
    · exact h3 g hmem
    · have hold : (st.store.getD i emptyGif).useCount =
          ((st.store.getD i emptyGif).uses.length : Int) := by
        rw [List.getD_eq_get?]
        cases hgi : st.store.get? i with
        | none => simp [emptyGif]
        | some g0 => simpa using h3 g0 (List.get?_mem hgi)
      show (st.store.getD i emptyGif).useCount + 1 =
        (((st.store.getD i emptyGif).uses ++ [use]).length : Int)
      rw [List.length_append, List.length_singleton, hold]
      omega

theorem fixLine_WF {st st' : FixState} {line : String}
    (hwf : FixWF st) (h : fixLine st line = .ok st') : FixWF st' := by
  obtain ⟨f0, ts, u, hash, _, _, _, hcase⟩ := fixLine_ok_inv h
  rcases hcase with ⟨_, rfl⟩ | ⟨i, _, happ⟩
  · exact hwf
  · exact fixApply_WF hwf happ

theorem fixScan_WF {ls : List String} :
    ∀ {st st' : FixState}, FixWF st → fixScan st ls = .ok st' → FixWF st' := by
  induction ls with
  | nil =>
    intro st st' hwf h
    simp only [fixScan] at h
    cases h
    exact hwf
  | cons l ls ih =>
    intro st st' hwf h
    simp only [fixScan] at h
    split at h
    next s hs => exact ih (fixLine_WF hwf hs) h
    next => cases h
    next => cases h

theorem sparkStep_WF {st : FixState} (hwf : FixWF st) (sol : SoLine) :
    FixWF (sparkStep st sol) := by
  unfold sparkStep
  split
  · exact hwf
  next hnone =>
    obtain ⟨h1, h2, h3⟩ := hwf
    refine ⟨?_, ?_, ?_⟩
    · simp only [List.map_append, h1, List.length_append, List.length_cons,
        List.length_nil]
      rw [List.range_succ]
      rfl
    · intro p hp
      rcases mem_updateA hp with hmem | rfl
      · obtain ⟨hlt, hck⟩ := h2 p hmem
        refine ⟨by simp; omega, ?_⟩
        rw [List.getD_eq_get?, List.get?_append hlt, ← List.getD_eq_get?]
        exact hck
      · refine ⟨by simp, ?_⟩
        rw [List.getD_eq_get?, List.get?_append_right (Nat.le_refl _)]
        simp
    · intro g hg
      rcases List.mem_append.mp hg with hmem | hmem
      · exact h3 g hmem
      · simp only [List.mem_singleton] at hmem
        subst hmem
        simp

theorem sparkScan_WF {spark : List SoLine} :
    ∀ {st : FixState}, FixWF st → FixWF (sparkScan st spark) := by
  induction spark with
  | nil => intro st hwf; exact hwf
  | cons sol sols ih => intro st hwf; exact ih (sparkStep_WF hwf sol)

theorem fixEmit_eq_store {st : FixState}
    (h1 : st.byKey.map Prod.snd = List.range st.store.length) :
    fixEmit st = st.store := by
  have hlen : st.byKey.length = st.store.length := by
    have := congrArg List.length h1
    simpa using this
  apply List.ext_get?
  intro n
  unfold fixEmit
  rw [List.get?_map]
  by_cases hn : n < st.store.length
  · cases hp : st.byKey.get? n with
    | none =>
      have := List.get?_eq_none.mp hp
      omega
    | some p =>
      have h2 : (st.byKey.map Prod.snd).get? n = some p.2 := by
        rw [List.get?_map, hp]; rfl
      rw [h1, List.get?_range hn] at h2
      have hpn : p.2 = n := by injection h2 with hh; exact hh.symm
      show some (st.store.getD p.2 emptyGif) = st.store.get? n
      rw [hpn, List.getD_eq_get?]
      cases hs : st.store.get? n with
      | none =>
        have := List.get?_eq_none.mp hs
        omega
      | some g => rfl
  · rw [List.get?_eq_none.mpr (by omega), List.get?_eq_none.mpr (by omega)]
    rfl

theorem lookupA_append {α : Type} (m₁ m₂ : List (String × α)) (k : String) :
    lookupA (m₁ ++ m₂) k =
      match lookupA m₁ k with
      | some v => some v
      | none => lookupA m₂ k := by
  induction m₁ with
  | nil => simp [lookupA]
  | cons p t ih =>
    obtain ⟨k', v'⟩ := p
    by_cases h1 : k' = k
    · simp [lookupA, h1]
    · simp [lookupA, h1, ih]

theorem sparkStep_store_get? {st : FixState} {sol : SoLine} {i : Nat}
    (hi : i < st.store.length) :
    (sparkStep st sol).store.get? i = st.store.get? i := by
  unfold sparkStep
  split
  · rfl
  · exact List.get?_append hi

theorem sparkStep_store_le (st : FixState) (sol : SoLine) :
    st.store.length ≤ (sparkStep st sol).store.length := by
  unfold sparkStep
  split
  · exact Nat.le_refl _
  · simp

theorem sparkStep_byKey_get? {st : FixState} {sol : SoLine} {i : Nat}
    (hi : i < st.byKey.length) :
    (sparkStep st sol).byKey.get? i = st.byKey.get? i := by
  unfold sparkStep
  split
  · rfl
  · exact List.get?_append hi

theorem sparkStep_byKey_le (st : FixState) (sol : SoLine) :
    st.byKey.length ≤ (sparkStep st sol).byKey.length := by
  unfold sparkStep
  split
  · exact Nat.le_refl _
  · simp

theorem sparkScan_store_get? {spark : List SoLine} :
    ∀ {st : FixState} {i : Nat}, i < st.store.length →
      (sparkScan st spark).store.get? i = st.store.get? i := by
  induction spark with
  | nil => intro st i _; rfl
  | cons sol sols ih =>
    intro st i hi
    have h1 : i < (sparkStep st sol).store.length :=
      Nat.lt_of_lt_of_le hi (sparkStep_store_le st sol)
    exact (ih h1).trans (sparkStep_store_get? hi)

theorem sparkScan_byKey_get? {spark : List SoLine} :
    ∀ {st : FixState} {i : Nat}, i < st.byKey.length →
      (sparkScan st spark).byKey.get? i = st.byKey.get? i := by
  induction spark with
  | nil => intro st i _; rfl
  | cons sol sols ih =>
    intro st i hi
    have h1 : i < (sparkStep st sol).byKey.length :=
      Nat.lt_of_lt_of_le hi (sparkStep_byKey_le st sol)
    exact (ih h1).trans (sparkStep_byKey_get? hi)

theorem sparkScan_keys_none {spark : List SoLine} :
    ∀ {st : FixState} {k : String}, lookupA st.byKey k = none →
      (∀ s ∈ spark, tsURLKey s.ts s.url ≠ k) →
      lookupA (sparkScan st spark).byKey k = none := by
  induction spark with
  | nil => intro st k hk _; exact hk
  | cons sol sols ih =>
    intro st k hk hne
    have hstep : lookupA (sparkStep st sol).byKey k = none := by
      unfold sparkStep
      split
      · exact hk
      · rw [lookupA_append, hk]
        have : tsURLKey sol.ts sol.url ≠ k := hne sol (by simp)
        simp [lookupA, this]
    exact ih hstep (fun s hs => hne s (by simp [hs]))

theorem fixResolve_ne_of {st : FixState} {i : Nat}
    {ourKey ourHash lineKey lineHash : String}
    (hwf : FixWF st)
    (hbk : st.byKey.get? i = some (ourKey, i))
    (hck : (st.store.getD i emptyGif).checksum = ourHash)
    (hk : lineKey ≠ ourKey) (hh : lineHash ≠ ourHash) :
    fixResolve st lineKey lineHash ≠ some i := by
  intro hres
  unfold fixResolve at hres
  split at hres
  next j hj =>
    cases hres
    have hmem := lookupA_mem hj
    obtain ⟨pos, hpos⟩ := List.get?_of_mem hmem
    have hsnd : (st.byKey.map Prod.snd).get? pos = some i := by
      rw [List.get?_map, hpos]; rfl
    rw [hwf.1] at hsnd
    have hpos_lt : pos < st.store.length := by
      by_contra hge
      rw [List.get?_eq_none.mpr (by simpa using Nat.le_of_not_lt hge)] at hsnd
      cases hsnd
    rw [List.get?_range hpos_lt] at hsnd
    have hpi : pos = i := by injection hsnd with hh'
    subst hpi
    rw [hpos] at hbk
    have : lineKey = ourKey := by injection hbk with hb; exact congrArg Prod.fst hb
    exact hk this
  next hjnone =>
    have hmem := lookupA_mem hres
    obtain ⟨_, hck'⟩ := hwf.2.1 _ hmem
    exact hh (hck'.symm.trans hck)

theorem fixScan_untouched {man : List String} :
    ∀ {st st' : FixState} {i : Nat} {ourKey ourHash : String},
      FixWF st →
      st.byKey.get? i = some (ourKey, i) →
      (st.store.getD i emptyGif).checksum = ourHash →
      fixScan st man = .ok st' →
      (∀ l ∈ man, ∀ f0 ts u hash,
        (lineFields l).get? 0 = some f0 → splitWaybackURL f0 = some (ts, u) →
        (lineFields l).get? 1 = some hash →
        tsURLKey ts u ≠ ourKey ∧ hash ≠ ourHash) →
      st'.store.get? i = st.store.get? i := by
  induction man with
  | nil =>
    intro st st' i ourKey ourHash _ _ _ h _
    simp only [fixScan] at h
    cases h
    rfl
  | cons l ls ih =>
    intro st st' i ourKey ourHash hwf hbk hck h hman
    simp only [fixScan] at h
    split at h
    next s hs =>
      obtain ⟨f0, ts, u, hash, hf0, hsp, hhash, hcase⟩ := fixLine_ok_inv hs
      obtain ⟨hkne, hhne⟩ := hman l (by simp) f0 ts u hash hf0 hsp hhash
      have hget : s.store.get? i = st.store.get? i := by
        rcases hcase with ⟨_, rfl⟩ | ⟨j, hres, happ⟩
        · rfl
        · have hji : j ≠ i :=
            fun hji => (fixResolve_ne_of hwf hbk hck hkne hhne) (hji ▸ hres)
          obtain ⟨_, _, _, _, _, hfr⟩ := fixApply_frame happ
          exact hfr i (fun hh => hji hh.symm)
      have hwf' : FixWF s := fixLine_WF hwf hs
      have hbk' : s.byKey.get? i = some (ourKey, i) := by
        rw [(fixLine_frame hs).1]
        exact hbk
      have hck' : (s.store.getD i emptyGif).checksum = ourHash := by
        rw [List.getD_eq_get?, hget, ← List.getD_eq_get?]
        exact hck
      have := ih hwf' hbk' hck' h (fun l' hl' => hman l' (by simp [hl']))
      rw [this, hget]
    next => cases h
    next => cases h

theorem fixmanifest_ok_inv {spark : List SoLine} {man : List String}
    {out : List Gif} {warns : List String}
    (h : fixmanifest spark man = .ok (out, warns)) :
    ∃ st', fixScan (sparkScan fixInit spark) man = .ok st' ∧
      out = fixEmit st' ∧ warns = st'.warnings := by
  unfold fixmanifest at h
  split at h
  next st hst =>
    cases h
    exact ⟨st, hst, rfl, rfl⟩
  next => cases h
  next => cases h

/-- The checksums in the resolver's store after phase 1 form a sublist of
the spark-output hashes. -/
theorem sparkScan_checksums (spark : List SoLine) :
    ∀ st : FixState, ∃ w,
      (sparkScan st spark).store.map (fun g => g.checksum) =
        st.store.map (fun g => g.checksum) ++ w ∧
      w.Sublist (spark.map SoLine.hash) := by
  induction spark with
  | nil => intro st; exact ⟨[], by simp [sparkScan], by simp⟩
  | cons sol sols ih =>
    intro st
    have hstep : sparkScan st (sol :: sols) = sparkScan (sparkStep st sol) sols := rfl
    rw [hstep]
    unfold sparkStep
    split
    · obtain ⟨w, hw, hsub⟩ := ih st
      exact ⟨w, hw, hsub.trans (List.sublist_cons_self _ _)⟩
    · obtain ⟨w, hw, hsub⟩ := ih
        { st with
          store := st.store ++ [{ checksum := sol.hash, uses := [] }],
          byKey := st.byKey ++ [(tsURLKey sol.ts sol.url, st.store.length)],
          byHash := updateA st.byHash sol.hash st.store.length }
      refine ⟨sol.hash :: w, ?_, ?_⟩
      · rw [hw]
        simp
      · exact List.Sublist.cons₂ _ hsub

/-! ## Lemmas about the enrichment merger -/

theorem vecLines_append (l1 : List VecLine) :
    ∀ (m : List (String × Gif)) (ws : List String) (l2 : List VecLine),
      vecLines m ws (l1 ++ l2) =
        vecLines (vecLines m ws l1).1 (vecLines m ws l1).2 l2 := by
  induction l1 with
  | nil => intro m ws l2; rfl
  | cons v vs ih =>
    intro m ws l2
    show vecLines m ws (v :: (vs ++ l2)) = _
    cases hl : lookupA m v.hash with
    | none =>
      simp only [vecLines, hl]
      exact ih _ _ l2
    | some g =>
      simp only [vecLines, hl]
      exact ih _ _ l2

theorem foldl_vecLines (shards : List (String × List VecLine)) :
    ∀ (m : List (String × Gif)) (ws : List String),
      shards.foldl (fun acc sh => vecLines acc.1 acc.2 sh.2) (m, ws) =
        vecLines m ws ((shards.map Prod.snd).flatten) := by
  induction shards with
  | nil => intro m ws; rfl
  | cons sh rest ih =>
    intro m ws
    simp only [List.foldl_cons, List.map_cons, List.flatten_cons]
    rw [vecLines_append]
    have : vecLines m ws sh.2 = ((vecLines m ws sh.2).1, (vecLines m ws sh.2).2) := rfl
    rw [← ih ((vecLines m ws sh.2).1) ((vecLines m ws sh.2).2)]

theorem vecLines_lookup {ls : List VecLine} :
    ∀ {m : List (String × Gif)} {ws : List String} {c : String} {g0 : Gif},
      lookupA m c = some g0 →
      lookupA (vecLines m ws ls).1 c =
        some (vecApply g0 (ls.filter (fun v => v.hash = c))) := by
  induction ls with
  | nil =>
    intro m ws c g0 h
    simpa [vecLines, vecApply] using h
  | cons v vs ih =>
    intro m ws c g0 h
    by_cases hv : v.hash = c
    · have hl : lookupA m v.hash = some g0 := by rw [hv]; exact h
      have hfil : (v :: vs).filter (fun v => v.hash = c) =
          v :: vs.filter (fun v => v.hash = c) := by
        simp [List.filter_cons, hv]
      rw [hfil]
      simp only [vecLines, hl]
      have hup : lookupA (updateA m v.hash
          { g0 with vecs := g0.vecs ++ [{ vector := v.embedding }],
                    mnsfw := v.mnsfw, mspec := v.mspec }) c =
          some { g0 with vecs := g0.vecs ++ [{ vector := v.embedding }],
                         mnsfw := v.mnsfw, mspec := v.mspec } := by
        rw [lookupA_updateA, if_pos hv]
      exact ih hup
    · have hfil : (v :: vs).filter (fun v => v.hash = c) =
          vs.filter (fun v => v.hash = c) := by
        simp [List.filter_cons, hv]
      rw [hfil]
      cases hl : lookupA m v.hash with
      | none =>
        simp only [vecLines, hl]
        exact ih h
      | some g =>
        simp only [vecLines, hl]
        apply ih
        rw [lookupA_updateA, if_neg hv]
        exact h

theorem vecApply_nil (g : Gif) : vecApply g [] = g := rfl

theorem vecApply_checksum (rs : List VecLine) :
    ∀ g : Gif, (vecApply g rs).checksum = g.checksum := by
  induction rs with
  | nil => intro g; rfl
  | cons v vs ih => intro g; exact ih _

theorem vecApply_vecs (rs : List VecLine) :
    ∀ g : Gif, (vecApply g rs).vecs =
      g.vecs ++ rs.map (fun v => ({ vector := v.embedding } : Vec)) := by
  induction rs with
  | nil => intro g; simp [vecApply]
  | cons v vs ih =>
    intro g
    show (vecApply _ vs).vecs = _
    rw [ih]
    simp

theorem vecApply_last (rs : List VecLine) (hne : rs ≠ []) :
    ∀ g : Gif, (vecApply g rs).mnsfw = (rs.getLastD noVecLine).mnsfw ∧
      (vecApply g rs).mspec = (rs.getLastD noVecLine).mspec := by
  induction rs with
  | nil => exact absurd rfl hne
  | cons v vs ih =>
    intro g
    cases vs with
    | nil => exact ⟨rfl, rfl⟩
    | cons w t =>
      have h1 := ih (by simp)
        ({ g with vecs := g.vecs ++ [{ vector := v.embedding }],
                  mnsfw := v.mnsfw, mspec := v.mspec })
      exact ⟨h1.1, h1.2⟩

theorem vecLines_keys {ls : List VecLine} :
    ∀ {m : List (String × Gif)} {ws : List String},
      (vecLines m ws ls).1.map Prod.fst = m.map Prod.fst := by
  induction ls with
  | nil => intro m ws; rfl
  | cons v vs ih =>
    intro m ws
    cases hl : lookupA m v.hash with
    | none =>
      simp only [vecLines, hl]
      exact ih
    | some g =>
      simp only [vecLines, hl]
      rw [ih, keys_updateA_of_some _ hl]

theorem vecLines_warnings {ls : List VecLine} :
    ∀ {m : List (String × Gif)} {ws : List String},
      (vecLines m ws ls).2 =
        ws ++ (ls.filter (fun v => lookupA m v.hash = none)).map
          (fun v => vecWarnMsg v.hash) := by
  induction ls with
  | nil => intro m ws; simp [vecLines]
  | cons v vs ih =>
    intro m ws
    cases hl : lookupA m v.hash with
    | none =>
      simp only [vecLines, hl]
      rw [ih]
      have hfil : (v :: vs).filter (fun v => lookupA m v.hash = none) =
          v :: vs.filter (fun v => lookupA m v.hash = none) := by
        simp [List.filter_cons, hl]
      rw [hfil]
      simp
    | some g =>
      simp only [vecLines, hl]
      rw [ih]
      have hfil : (v :: vs).filter (fun v => lookupA m v.hash = none) =
          vs.filter (fun v => lookupA m v.hash = none) := by
        simp [List.filter_cons, hl]
      rw [hfil]
      congr 1
      apply congrArg
      apply List.filter_congr
      intro x _
      simp only [decide_eq_decide]
      rw [lookupA_updateA]
      by_cases hxv : v.hash = x.hash
      · rw [if_pos hxv, ← hxv, hl]
        simp
      · rw [if_neg hxv]

/-! ## The claims -/

/-- C1 witness: concrete two-line manifest with the same checksum and
differing dimensions; the emitted record carries the first line's 7×8. -/
theorem manifest_first_write_wins_witness :
    ∃ g ∈ (manifest [lineC78, lineC99]).okD [],
      g.checksum = lineChecksum lineC78 ∧
      (∃ ws, (lineFields lineC78).get? 2 = some ws ∧ parseInt32 ws = some g.width) ∧
      (∃ hs, (lineFields lineC78).get? 3 = some hs ∧ parseInt32 hs = some g.height) :=
  manifest_first_write_wins [] [lineC99] lineC78
    ((manifest [lineC78, lineC99]).okD []) (by decide) (by decide)

/-- C2: in both the aggregation pass and the reconciliation resolver,
every emitted record's use count equals the length of its uses sequence. -/
theorem use_count_invariant :
    (∀ (lines : List String) (gifs : List Gif), manifest lines = .ok gifs →
      ∀ g ∈ gifs, g.useCount = (g.uses.length : Int)) ∧
    (∀ (spark : List SoLine) (man : List String) (out : List Gif)
       (warns : List String),
      fixmanifest spark man = .ok (out, warns) →
      ∀ g ∈ out, g.useCount = (g.uses.length : Int)) := by
  constructor
  · intro lines gifs hrun g hg
    obtain ⟨seen, hagg, rfl⟩ := manifest_ok_inv hrun
    obtain ⟨p, hp, rfl⟩ := List.mem_map.mp hg
    exact ((manifestAgg_WF SeenWF_nil hagg).1 p hp).2
  · intro spark man out warns hrun g hg
    obtain ⟨st', hscan, rfl, _⟩ := fixmanifest_ok_inv hrun
    have hwf := fixScan_WF (sparkScan_WF FixWF_init) hscan
    rw [fixEmit_eq_store hwf.1] at hg
    exact hwf.2.2 g hg

/-- C2 witness: the invariant at concrete runs of both passes. -/
theorem use_count_invariant_witness :
    gifC78.useCount = (gifC78.uses.length : Int) ∧
    skelH.useCount = (skelH.uses.length : Int) :=
  ⟨use_count_invariant.1 [lineC78] [gifC78] (by decide) gifC78 (by decide),
   use_count_invariant.2 [solHu1] [] [skelH] [] (by decide) skelH (by decide)⟩

/-- C3 counterexample: two bulk-job output lines sharing hash `H` under
two different composite keys make the resolver emit two records with the
same checksum, so the claim fails for the reconciliation pass. -/
theorem checksum_uniqueness_counterexample :
    ((fixmanifest [solHu1, solHu2] []).okD ([], [])).1.map
        (fun g => g.checksum) = ["H", "H"] ∧
    ¬ ((fixmanifest [solHu1, solHu2] []).okD ([], [])).1.Pairwise
        (fun a b => a.checksum ≠ b.checksum) := by decide

/-- C3 (amended): no two records emitted by the aggregation pass share a
checksum; the reconciliation resolver guarantees this only when the
bulk-job output's hashes are pairwise distinct — duplicate hashes under
different composite keys yield duplicate output checksums. -/
theorem checksum_uniqueness :
    (∀ (lines : List String) (gifs : List Gif), manifest lines = .ok gifs →
      gifs.Pairwise (fun a b => a.checksum ≠ b.checksum)) ∧
    (∀ (spark : List SoLine) (man : List String) (out : List Gif)
       (warns : List String),
      (spark.map SoLine.hash).Nodup →
      fixmanifest spark man = .ok (out, warns) →
      out.Pairwise (fun a b => a.checksum ≠ b.checksum)) := by
  constructor
  · intro lines gifs hrun
    obtain ⟨seen, hagg, rfl⟩ := manifest_ok_inv hrun
    obtain ⟨hprop, hkeys⟩ := manifestAgg_WF SeenWF_nil hagg
    rw [List.pairwise_map]
    have hk : seen.Pairwise (fun p q => p.1 ≠ q.1) :=
      List.pairwise_map.mp hkeys
    refine hk.imp_of_mem ?_
    intro p q hp hq hne
    rw [(hprop p hp).1, (hprop q hq).1]
    exact hne
  · intro spark man out warns hnd hrun
    obtain ⟨st', hscan, rfl, _⟩ := fixmanifest_ok_inv hrun
    have hwf := fixScan_WF (sparkScan_WF FixWF_init) hscan
    rw [fixEmit_eq_store hwf.1]
    have hmap : st'.store.map (fun g => g.checksum) =
        (sparkScan fixInit spark).store.map (fun g => g.checksum) :=
      (fixScan_frame hscan).2.2.2
    obtain ⟨w, hw, hsub⟩ := sparkScan_checksums spark fixInit
    have hnw : ((sparkScan fixInit spark).store.map (fun g => g.checksum)).Nodup := by
      rw [hw]
      exact List.Nodup.sublist hsub hnd
    have h3 : (st'.store.map (fun g => g.checksum)).Pairwise (· ≠ ·) := by
      rw [hmap]
      exact hnw
    exact List.pairwise_map.mp h3

/-- C3 witness: concrete runs of both passes with unique checksums. -/
theorem checksum_uniqueness_witness :
    ([gifC78] : List Gif).Pairwise (fun a b => a.checksum ≠ b.checksum) ∧
    ([skelH] : List Gif).Pairwise (fun a b => a.checksum ≠ b.checksum) :=
  ⟨checksum_uniqueness.1 [lineC78] [gifC78] (by decide),
   checksum_uniqueness.2 [solHu1] [] [skelH] [] (by decide) (by decide)⟩

/-- C4: the resolver's per-line lookup tries the composite key first and
the by-checksum index only on a miss; a double miss appends the
`FAILED TO FIND <key> IN THE SPARK OUTPUT` warning and skips the line
without aborting; on a composite-key hit every update goes to the record
the composite key selects, whose checksum — the bulk-job output's — is
preserved no matter what the line's own checksum field says. -/
theorem two_phase_lookup (st : FixState) (line : String)
    (f0 cs ts u : String)
    (hf0 : (lineFields line).get? 0 = some f0)
    (hsplit : splitWaybackURL f0 = some (ts, u))
    (hcs : (lineFields line).get? 1 = some cs) :
    (lookupA st.byKey (tsURLKey ts u) = none →
      lookupA st.byHash cs = none →
      fixLine st line =
        .ok { st with warnings := st.warnings ++ [sparkMissMsg (tsURLKey ts u)] }) ∧
    (∀ i st', lookupA st.byKey (tsURLKey ts u) = some i →
      fixLine st line = .ok st' →
      st'.byKey = st.byKey ∧ st'.byHash = st.byHash ∧
      st'.warnings = st.warnings ∧
      ∃ g', st'.store = st.store.set i g' ∧
        g'.checksum = (st.store.getD i emptyGif).checksum ∧
        g'.uses.length = (st.store.getD i emptyGif).uses.length + 1) ∧
    (∀ j st', lookupA st.byKey (tsURLKey ts u) = none →
      lookupA st.byHash cs = some j →
      fixLine st line = .ok st' →
      st'.byKey = st.byKey ∧ st'.byHash = st.byHash ∧
      st'.warnings = st.warnings ∧
      ∃ g', st'.store = st.store.set j g' ∧
        g'.checksum = (st.store.getD j emptyGif).checksum) := by
  refine ⟨?_, ?_, ?_⟩
  · intro h1 h2
    simp only [fixLine, hf0, hsplit, hcs, fixResolve, h1, h2]
  · intro i st' hk happ
    have happly : fixApply st i (lineFields line) = .ok st' := by
      rw [← happ]
      simp only [fixLine, hf0, hsplit, hcs, fixResolve, hk]
    obtain ⟨w, hgt, use, _, _, _, rfl⟩ := fixApply_ok_inv happly
    refine ⟨rfl, rfl, rfl, fixUpd (st.store.getD i emptyGif) w hgt use, rfl, rfl, ?_⟩
    show ((st.store.getD i emptyGif).uses ++ [use]).length = _
    simp
  · intro j st' hk hh happ
    have happly : fixApply st j (lineFields line) = .ok st' := by
      rw [← happ]
      simp only [fixLine, hf0, hsplit, hcs, fixResolve, hk, hh]
    obtain ⟨w, hgt, use, _, _, _, rfl⟩ := fixApply_ok_inv happly
    exact ⟨rfl, rfl, rfl, fixUpd (st.store.getD j emptyGif) w hgt use, rfl, rfl⟩

/-- C4 witness: concrete double miss, composite-key hit (with a
conflicting checksum field that also names another record), and
checksum-only hit, plus the end-to-end run showing the emitted record
carries the bulk-job checksum `H1`, not the line's `H2`. -/
theorem two_phase_lookup_witness :
    (fixLine stW lineMissW =
      .ok { stW with warnings := stW.warnings ++ [sparkMissMsg (tsURLKey "2" "z")] }) ∧
    (((fixLine stW lineHitW).okD stW).byKey = stW.byKey ∧
     ((fixLine stW lineHitW).okD stW).byHash = stW.byHash ∧
     ((fixLine stW lineHitW).okD stW).warnings = stW.warnings ∧
     ∃ g', ((fixLine stW lineHitW).okD stW).store = stW.store.set 0 g' ∧
       g'.checksum = (stW.store.getD 0 emptyGif).checksum ∧
       g'.uses.length = (stW.store.getD 0 emptyGif).uses.length + 1) ∧
    (((fixLine stW lineHashW).okD stW).byKey = stW.byKey ∧
     ((fixLine stW lineHashW).okD stW).byHash = stW.byHash ∧
     ((fixLine stW lineHashW).okD stW).warnings = stW.warnings ∧
     ∃ g', ((fixLine stW lineHashW).okD stW).store = stW.store.set 0 g' ∧
       g'.checksum = (stW.store.getD 0 emptyGif).checksum) ∧
    ((fixmanifest [solW] [lineHitW]).okD ([], [])).1.map
      (fun g => g.checksum) = ["H1"] :=
  ⟨(two_phase_lookup stW lineMissW "2/z" "H3" "2" "z"
      (by decide) (by decide) (by decide)).1 (by decide) (by decide),
   (two_phase_lookup stW lineHitW "20200101000000/http://x/y.gif" "H2"
      "20200101000000" "http://x/y.gif"
      (by decide) (by decide) (by decide)).2.1 0 ((fixLine stW lineHitW).okD stW)
      (by decide) (by decide),
   (two_phase_lookup stW lineHashW "3/w" "H1" "3" "w"
      (by decide) (by decide) (by decide)).2.2 0 ((fixLine stW lineHashW).okD stW)
      (by decide) (by decide) (by decide),
   by decide⟩

theorem vecmerge_eq (base : List Gif) (shards : List (String × List VecLine)) :
    vecmerge base shards =
      ((vecLines (buildBase base []) []
          ((shards.map Prod.snd).flatten)).1.map Prod.snd,
       (vecLines (buildBase base []) []
          ((shards.map Prod.snd).flatten)).2) := by
  unfold vecmerge
  rw [foldl_vecLines]

/-- C5: every enrichment record whose checksum is present in the base set
appends one vector built from its embedding and overwrites `mnsfw` and
`mspec`, so a record named by the records `enrichFor shards c` accumulates
exactly one vector per record, and its final `mnsfw`/`mspec` are those of
the last such record in the caller-supplied shard order
(last-shard-wins). -/
theorem enrichment_merge (base : List Gif)
    (shards : List (String × List VecLine)) (c : String) (g0 : Gif)
    (hbase : lookupA (buildBase base []) c = some g0) :
    ∃ g ∈ (vecmerge base shards).1,
      g.checksum = g0.checksum ∧
      g.vecs = g0.vecs ++ (enrichFor shards c).map
        (fun v => ({ vector := v.embedding } : Vec)) ∧
      (enrichFor shards c ≠ [] →
        g.mnsfw = ((enrichFor shards c).getLastD noVecLine).mnsfw ∧
        g.mspec = ((enrichFor shards c).getLastD noVecLine).mspec) ∧
      (enrichFor shards c = [] → g = g0) := by
  rw [vecmerge_eq]
  have hlook := @vecLines_lookup ((shards.map Prod.snd).flatten)
    (buildBase base []) [] c g0 hbase
  refine ⟨vecApply g0 (enrichFor shards c), snd_mem_of_lookupA hlook,
    vecApply_checksum _ _, vecApply_vecs _ _, ?_, ?_⟩
  · intro hne
    exact vecApply_last _ hne g0
  · intro hnil
    rw [hnil]
    exact vecApply_nil g0

/-- C5 witness: checksum `X` named once by each of two shards ends with
two vectors and shard B's moderation fields; the concrete run shows
`mnsfw = 2` (shard B), not 1 (shard A). -/
theorem enrichment_merge_witness :
    (∃ g ∈ (vecmerge [gifX] shardsAB).1,
      g.checksum = gifX.checksum ∧
      g.vecs = gifX.vecs ++ (enrichFor shardsAB "X").map
        (fun v => ({ vector := v.embedding } : Vec)) ∧
      (enrichFor shardsAB "X" ≠ [] →
        g.mnsfw = ((enrichFor shardsAB "X").getLastD noVecLine).mnsfw ∧
        g.mspec = ((enrichFor shardsAB "X").getLastD noVecLine).mspec) ∧
      (enrichFor shardsAB "X" = [] → g = gifX)) ∧
    (vecmerge [gifX] shardsAB).1.map (fun g => g.mnsfw) = [2] ∧
    (vecmerge [gifX] shardsAB).1.map (fun g => g.vecs) =
      [[{ vector := [1] }, { vector := [2] }]] :=
  ⟨enrichment_merge [gifX] shardsAB "X" gifX (by decide), by decide, by decide⟩

/-- C6 counterexample: an enrichment record with unknown checksum `Y`
produces exactly one warning and no change, but the warning does not name
the source shard (`SHARDNAME` does not occur in it), contradicting "the
warning naming both the checksum and the source shard". -/
theorem enrichment_unknown_checksum_counterexample :
    vecmerge [gifX] [("SHARDNAME", [vlY])] = ([gifX], [vecWarnMsg "Y"]) ∧
    containsStr (vecWarnMsg "Y") "SHARDNAME" = false := by decide

theorem leadsWith_self_append (sub post : List Char) :
    leadsWith sub (sub ++ post) = true := by
  induction sub with
  | nil => rfl
  | cons c cs ih => simp [leadsWith, ih]

theorem hasSub_of_leadsWith {sub l : List Char} (h : leadsWith sub l = true) :
    hasSub sub l = true := by
  cases l with
  | nil => exact h
  | cons c t => simp [hasSub, h]

theorem hasSub_mid (pre sub post : List Char) :
    hasSub sub (pre ++ (sub ++ post)) = true := by
  induction pre with
  | nil => exact hasSub_of_leadsWith (leadsWith_self_append sub post)
  | cons c t ih => simp [hasSub, ih]

theorem containsStr_vecWarnMsg (h : String) :
    containsStr (vecWarnMsg h) h = true := by
  show hasSub h.data
    (("WARN checksum '" ++ h ++ "' not found in gifcities.jsonl").data) = true
  have hdata : ("WARN checksum '" ++ h ++ "' not found in gifcities.jsonl").data =
      "WARN checksum '".data ++
        (h.data ++ "' not found in gifcities.jsonl".data) := by
    show ("WARN checksum '".data ++ h.data) ++
        "' not found in gifcities.jsonl".data = _
    rw [List.append_assoc]
  rw [hdata]
  exact hasSub_mid _ _ _

/-- C6 (amended): an enrichment record whose checksum is absent from the
base set is discarded — the map is untouched and exactly one warning is
emitted per occurrence (the run's warnings are exactly one per unmatched
record, in input order, and no record is created or destroyed) — and the
warning names the checksum, but not the source shard. -/
theorem enrichment_unknown_checksum :
    (∀ (m : List (String × Gif)) (ws : List String) (v : VecLine)
       (vls : List VecLine),
      lookupA m v.hash = none →
      vecLines m ws (v :: vls) = vecLines m (ws ++ [vecWarnMsg v.hash]) vls) ∧
    (∀ h : String, containsStr (vecWarnMsg h) h = true) ∧
    (∀ (base : List Gif) (shards : List (String × List VecLine)),
      (vecmerge base shards).2 =
        (((shards.map Prod.snd).flatten).filter
          (fun v => lookupA (buildBase base []) v.hash = none)).map
          (fun v => vecWarnMsg v.hash)) ∧
    (∀ (base : List Gif) (shards : List (String × List VecLine)),
      (vecmerge base shards).1.length = (buildBase base []).length) := by
  refine ⟨?_, containsStr_vecWarnMsg, ?_, ?_⟩
  · intro m ws v vls hl
    simp only [vecLines, hl]
  · intro base shards
    rw [vecmerge_eq]
    rw [vecLines_warnings]
    rfl
  · intro base shards
    rw [vecmerge_eq]
    show ((vecLines (buildBase base []) [] _).1.map Prod.snd).length = _
    rw [List.length_map]
    have hkeys := @vecLines_keys ((shards.map Prod.snd).flatten)
      (buildBase base []) []
    have hlen := congrArg List.length hkeys
    simpa using hlen

/-- C6 witness: the amended statement at a concrete unmatched record. -/
theorem enrichment_unknown_checksum_witness :
    vecLines (buildBase [gifX] []) [] [vlY] =
      vecLines (buildBase [gifX] []) ([] ++ [vecWarnMsg vlY.hash]) [] ∧
    containsStr (vecWarnMsg "Y") "Y" = true ∧
    (vecmerge [gifX] [("SHARDNAME", [vlY])]).2 = [vecWarnMsg "Y"] ∧
    (vecmerge [gifX] [("SHARDNAME", [vlY])]).1.length = 1 :=
  ⟨enrichment_unknown_checksum.1 (buildBase [gifX] []) [] vlY [] (by decide),
   enrichment_unknown_checksum.2.1 "Y",
   (enrichment_unknown_checksum.2.2.1 [gifX] [("SHARDNAME", [vlY])]).trans
     (by decide),
   (enrichment_unknown_checksum.2.2.2 [gifX] [("SHARDNAME", [vlY])]).trans
     (by decide)⟩

/-- C7 counterexample: a line repeating checksum `C` with the unparseable
width field `xx` does not abort the pass — the aggregation completes
normally, because width/height are only parsed on first sight of a
checksum. -/
theorem width_abort_counterexample :
    parseInt32 "xx" = none ∧
    (lineFields lineCxx).get? 1 = some "C" ∧
    manifest [lineC78, lineCxx] =
      .ok [{ gifC78 with useCount := 2, uses := [useU1, useU1] }] := by decide

/-- C7 (amended): an unparseable width or height field aborts the pass
with the corresponding error only on a line whose checksum has not been
seen earlier in the pass; on a line with an already-seen checksum the
dimension fields are never parsed. -/
theorem width_abort (pre post : List String) (l cs : String)
    (seen : List (String × Gif))
    (hpre : manifestAgg [] pre = .ok seen)
    (hcs : (lineFields l).get? 1 = some cs)
    (hunseen : lookupA seen cs = none) :
    (∀ ws, (lineFields l).get? 2 = some ws → parseInt32 ws = none →
      manifest (pre ++ l :: post) = .err (badWidthMsg ws)) ∧
    (∀ ws w hs, (lineFields l).get? 2 = some ws → parseInt32 ws = some w →
      (lineFields l).get? 3 = some hs → parseInt32 hs = none →
      manifest (pre ++ l :: post) = .err (badHeightMsg hs)) := by
  constructor
  · intro ws hws hbad
    unfold manifest
    rw [manifestAgg_append, hpre]
    show (match manifestAgg seen (l :: post) with
      | .ok s => Outcome.ok (s.map Prod.snd)
      | .err e => .err e
      | .crash => .crash) = _
    simp only [manifestAgg, manifestLine, hcs, manifestGif0, hunseen, hws, hbad]
  · intro ws w hs hws hw hhs hbad
    unfold manifest
    rw [manifestAgg_append, hpre]
    show (match manifestAgg seen (l :: post) with
      | .ok s => Outcome.ok (s.map Prod.snd)
      | .err e => .err e
      | .crash => .crash) = _
    simp only [manifestAgg, manifestLine, hcs, manifestGif0, hunseen, hws, hw,
      hhs, hbad]

/-- C7 witness: a first-occurrence bad width and a first-occurrence bad
height each abort concrete runs with the corresponding error. -/
theorem width_abort_witness :
    manifest [lineC78, "1/u D xx 8 -/-"] = .err (badWidthMsg "xx") ∧
    manifest [lineC78, "1/u E 7 yy -/-"] = .err (badHeightMsg "yy") :=
  ⟨(width_abort [lineC78] [] "1/u D xx 8 -/-" "D" [("C", gifC78)]
      (by decide) (by decide) (by decide)).1 "xx" (by decide) (by decide),
   (width_abort [lineC78] [] "1/u E 7 yy -/-" "E" [("C", gifC78)]
      (by decide) (by decide) (by decide)).2 "7" 7 "yy"
      (by decide) (by decide) (by decide) (by decide)⟩

/-- C8 counterexample: a one-field line, a four-field line, and a line
whose encoded-use field has no slash all crash the pass (Go index out of
range) rather than failing with an error value. -/
theorem malformed_line_counterexample :
    manifest ["abc"] = .crash ∧
    manifest ["1/u C 7 8"] = .crash ∧
    manifest ["a b 1 2 -/-"] = .crash := by decide

/-- C8 (amended): line parsing is not total — a line with fewer than two
fields, or whose encoded-use field contains no slash, or with fewer than
five fields once the earlier stages succeed, panics (crashes the pass)
instead of returning an error; only unparseable dimensions and URLs are
reported through the error result. -/
theorem malformed_line (seen : List (String × Gif)) (l : String) :
    ((lineFields l).length < 2 → manifestLine seen l = .crash) ∧
    (∀ cs g f0, (lineFields l).get? 1 = some cs → lookupA seen cs = some g →
      (lineFields l).get? 0 = some f0 → splitWaybackURL f0 = none →
      manifestLine seen l = .crash) ∧
    (∀ cs f0 ws w hs h, (lineFields l).get? 1 = some cs →
      lookupA seen cs = none →
      (lineFields l).get? 2 = some ws → parseInt32 ws = some w →
      (lineFields l).get? 3 = some hs → parseInt32 hs = some h →
      (lineFields l).get? 0 = some f0 → splitWaybackURL f0 = none →
      manifestLine seen l = .crash) ∧
    (∀ cs g f0 ts u pu, (lineFields l).get? 1 = some cs →
      lookupA seen cs = some g →
      (lineFields l).get? 0 = some f0 → splitWaybackURL f0 = some (ts, u) →
      urlParse u = some pu → (lineFields l).length < 5 →
      manifestLine seen l = .crash) := by
  refine ⟨?_, ?_, ?_, ?_⟩
  · intro hlen
    have hnone : (lineFields l).get? 1 = none :=
      List.get?_eq_none.mpr (by omega)
    simp only [manifestLine, hnone]
  · intro cs g f0 hcs hg hf0 hsplit
    simp only [manifestLine, hcs, manifestGif0, hg, parseUse, hf0, hsplit]
  · intro cs f0 ws w hs h hcs hg hws hw hhs hh hf0 hsplit
    simp only [manifestLine, hcs, manifestGif0, hg, hws, hw, hhs, hh,
      parseUse, hf0, hsplit]
  · intro cs g f0 ts u pu hcs hg hf0 hsplit hurl hlen
    have hnone : (lineFields l).get? 4 = none :=
      List.get?_eq_none.mpr (by omega)
    simp only [manifestLine, hcs, manifestGif0, hg, parseUse, hf0, hsplit,
      hurl, hnone]

/-- C8 witness: the four panic shapes at concrete lines. -/
theorem malformed_line_witness :
    manifestLine [] "abc" = .crash ∧
    manifestLine [("b", gifC78)] "a b 1 2 -/-" = .crash ∧
    manifestLine [] "a b 1 2 -/-" = .crash ∧
    manifestLine [("C", gifC78)] "1/u C 7 8" = .crash :=
  ⟨(malformed_line [] "abc").1 (by decide),
   (malformed_line [("b", gifC78)] "a b 1 2 -/-").2.1 "b" gifC78 "a"
     (by decide) (by decide) (by decide) (by decide),
   (malformed_line [] "a b 1 2 -/-").2.2.1 "b" "a" "1" 1 "2" 2
     (by decide) (by decide) (by decide) (by decide) (by decide) (by decide)
     (by decide) (by decide),
   (malformed_line [("C", gifC78)] "1/u C 7 8").2.2.2 "C" gifC78 "1/u" "1" "u"
     ({ path := "u" }) (by decide) (by decide) (by decide) (by decide)
     (by decide) (by decide)⟩

/-- C9: for a successfully parsed manifest line, the Use's page is absent
if and only if field 4 is the sentinel; for any other value the page is
present with the timestamp/url split of field 4. -/
theorem page_optionality (fields : List String) (u : Use) (f4 : String)
    (h : parseUse fields = .ok u) (hf4 : fields.get? 4 = some f4) :
    (u.page = none ↔ f4 = "-/-") ∧
    (∀ ts url, f4 ≠ "-/-" → splitWaybackURL f4 = some (ts, url) →
      u.page = some { url := url, timestamp := ts }) := by
  unfold parseUse at h
  split at h
  next => cases h
  next f0 hf0 =>
    split at h
    next => cases h
    next ts0 u0 hsp =>
      split at h
      next => cases h
      next pu hpu =>
        split at h
        next => cases h
        next f4' hf4' =>
          rw [hf4] at hf4'
          injection hf4' with hf4e
          subst hf4e
          split at h
          next hne4 =>
            split at h
            next => cases h
            next page hpage =>
              cases h
              constructor
              · constructor
                · intro hnone; exact absurd hnone (by simp)
                · intro hsent; exact absurd hsent hne4
              · intro ts url _ hsplit
                unfold parsePage at hpage
                rw [hsplit] at hpage
                injection hpage with hp
                show some page = some { url := url, timestamp := ts }
                rw [← hp]
          next hsent4 =>
            cases h
            refine ⟨⟨fun _ => not_ne_iff.mp hsent4, fun _ => rfl⟩, ?_⟩
            intro ts url hne _
            exact absurd hne hsent4

/-- C9 witness: the sentinel line yields no page and the non-sentinel line
yields the split page, at concrete parses. -/
theorem page_optionality_witness :
    ((useU1.page = none ↔ "-/-" = "-/-") ∧
      (∀ ts url, "-/-" ≠ "-/-" → splitWaybackURL "-/-" = some (ts, url) →
        useU1.page = some { url := url, timestamp := ts })) ∧
    ((usePg.page = none ↔ "2/p" = "-/-") ∧
      (∀ ts url, "2/p" ≠ "-/-" → splitWaybackURL "2/p" = some (ts, url) →
        usePg.page = some { url := url, timestamp := ts })) :=
  ⟨page_optionality (lineFields lineC78) useU1 "-/-" (by decide) (by decide),
   page_optionality (lineFields linePg) usePg "2/p" (by decide) (by decide)⟩

theorem sparkScan_append (xs ys : List SoLine) :
    ∀ st, sparkScan st (xs ++ ys) = sparkScan (sparkScan st xs) ys := by
  induction xs with
  | nil => intro st; rfl
  | cons x t ih => intro st; exact ih (sparkStep st x)

/-- C10: a skeletal record the resolver builds from a bulk-job output line
is emitted even when no manifest line resolves to it by composite key or
checksum: it appears in the output with its checksum populated, an empty
uses sequence, use count 0, and width and height 0 (the record built for
the first occurrence of a composite key). -/
theorem skeleton_emitted (spark1 spark2 : List SoLine) (sol : SoLine)
    (man : List String) (out : List Gif) (warns : List String)
    (hrun : fixmanifest (spark1 ++ sol :: spark2) man = .ok (out, warns))
    (hnewkey : ∀ s ∈ spark1, tsURLKey s.ts s.url ≠ tsURLKey sol.ts sol.url)
    (hnomatch : ∀ l ∈ man, ∀ f0 ts u hash,
      (lineFields l).get? 0 = some f0 → splitWaybackURL f0 = some (ts, u) →
      (lineFields l).get? 1 = some hash →
      tsURLKey ts u ≠ tsURLKey sol.ts sol.url ∧ hash ≠ sol.hash) :
    ({ checksum := sol.hash, uses := [] } : Gif) ∈ out := by
  obtain ⟨st', hscan, hout, _⟩ := fixmanifest_ok_inv hrun
  subst hout
  have hwfA : FixWF (sparkScan fixInit spark1) := sparkScan_WF FixWF_init
  have hkeynone : lookupA (sparkScan fixInit spark1).byKey
      (tsURLKey sol.ts sol.url) = none :=
    sparkScan_keys_none rfl hnewkey
  have hstep : sparkStep (sparkScan fixInit spark1) sol =
      { (sparkScan fixInit spark1) with
        store := (sparkScan fixInit spark1).store ++
          [{ checksum := sol.hash, uses := [] }],
        byKey := (sparkScan fixInit spark1).byKey ++
          [(tsURLKey sol.ts sol.url, (sparkScan fixInit spark1).store.length)],
        byHash := updateA (sparkScan fixInit spark1).byHash sol.hash
          (sparkScan fixInit spark1).store.length } := by
    unfold sparkStep
    rw [hkeynone]
  have hBlen : (sparkScan fixInit spark1).byKey.length =
      (sparkScan fixInit spark1).store.length := by
    have := congrArg List.length hwfA.1
    simpa using this
  have hBstore : (sparkStep (sparkScan fixInit spark1) sol).store.get?
      ((sparkScan fixInit spark1).store.length) =
      some { checksum := sol.hash, uses := [] } := by
    rw [hstep]
    exact List.get?_concat_length _ _
  have hBbykey : (sparkStep (sparkScan fixInit spark1) sol).byKey.get?
      ((sparkScan fixInit spark1).store.length) =
      some (tsURLKey sol.ts sol.url, (sparkScan fixInit spark1).store.length) := by
    rw [hstep]
    show ((sparkScan fixInit spark1).byKey ++ _).get? _ = _
    rw [← hBlen]
    exact List.get?_concat_length _ _
  have hwfC : FixWF (sparkScan (sparkStep (sparkScan fixInit spark1) sol) spark2) :=
    sparkScan_WF (sparkStep_WF hwfA sol)
  have hBstoreLen : (sparkScan fixInit spark1).store.length <
      (sparkStep (sparkScan fixInit spark1) sol).store.length := by
    rw [hstep]
    simp
  have hBkeyLen : (sparkScan fixInit spark1).store.length <
      (sparkStep (sparkScan fixInit spark1) sol).byKey.length := by
    rw [hstep]
    simp [← hBlen]
  have hCstore : (sparkScan (sparkStep (sparkScan fixInit spark1) sol)
      spark2).store.get? ((sparkScan fixInit spark1).store.length) =
      some { checksum := sol.hash, uses := [] } := by
    rw [sparkScan_store_get? hBstoreLen]
    exact hBstore
  have hCbykey : (sparkScan (sparkStep (sparkScan fixInit spark1) sol)
      spark2).byKey.get? ((sparkScan fixInit spark1).store.length) =
      some (tsURLKey sol.ts sol.url, (sparkScan fixInit spark1).store.length) := by
    rw [sparkScan_byKey_get? hBkeyLen]
    exact hBbykey
  have hCck : ((sparkScan (sparkStep (sparkScan fixInit spark1) sol)
      spark2).store.getD ((sparkScan fixInit spark1).store.length)
      emptyGif).checksum = sol.hash := by
    rw [List.getD_eq_get?, hCstore]
    rfl
  rw [sparkScan_append] at hscan
  have hcons : sparkScan (sparkScan fixInit spark1) (sol :: spark2) =
      sparkScan (sparkStep (sparkScan fixInit spark1) sol) spark2 := rfl
  rw [hcons] at hscan
  have huntouched := fixScan_untouched hwfC hCbykey hCck hscan hnomatch
  have hfinal : st'.store.get? ((sparkScan fixInit spark1).store.length) =
      some { checksum := sol.hash, uses := [] } := by
    rw [huntouched]
    exact hCstore
  have hwf' : FixWF st' := fixScan_WF hwfC hscan
  rw [fixEmit_eq_store hwf'.1]
  exact List.get?_mem hfinal

/-- C10 witness: one bulk-output line, one manifest line matching neither
by key nor by checksum; the skeletal record for hash `H` is emitted. -/
theorem skeleton_emitted_witness :
    skelH ∈ ((fixmanifest [solHu1] ["9/z Q 1 2 -/-"]).okD ([], [])).1 := by
  refine skeleton_emitted [] [] solHu1 ["9/z Q 1 2 -/-"]
    ((fixmanifest [solHu1] ["9/z Q 1 2 -/-"]).okD ([], [])).1
    ((fixmanifest [solHu1] ["9/z Q 1 2 -/-"]).okD ([], [])).2
    (by decide) (by decide) ?_
  intro l hl f0 ts u hash h1 h2 h3
  simp only [List.mem_singleton] at hl
  subst hl
  have hf : f0 = "9/z" := by
    have he : (lineFields "9/z Q 1 2 -/-").get? 0 = some "9/z" := by decide
    rw [he] at h1
    injection h1 with hh
    exact hh.symm
  subst hf
  have hsp : splitWaybackURL "9/z" = some ("9", "z") := by decide
  rw [hsp] at h2
  injection h2 with hh
  injection hh with hts hu
  subst hts
  subst hu
  have hq : (lineFields "9/z Q 1 2 -/-").get? 1 = some "Q" := by decide
  rw [hq] at h3
  injection h3 with hh3
  subst hh3
  exact ⟨by decide, by decide⟩

end Gifcities
